import Mathlib

/-!
Verification of the `stats` library (src/lib.rs): four statistics functions
`mean`, `stddev`, `median`, `l2` over slices of `f64`.

The Rust code computes with IEEE-754 binary64 ("f64") arithmetic.  We model
finite doubles by their exact rational values and embed the f64 operations as
exact rational arithmetic followed by IEEE round-to-nearest-even (precision 53,
subnormals down to 2^-1074, overflow to infinity at the usual threshold).
Two simplifications that are invisible to every claim considered here:
the sign of zero is not tracked (all claim-relevant zero results are +0.0 in
the Rust code, and Rust's `==`, used by the tests, ignores the sign of zero),
and NaN payloads are collapsed into a single `nan` constructor.
All inputs in the claims are finite doubles, i.e. rationals, so the public
functions take `List ℚ`; intermediate values may still overflow to infinity,
which the `F64` type records.
-/

/-- Fuel-driven floor of log₂ on naturals (`natLog2F fuel n = ⌊log₂ n⌋` for
`2 ≤ n < 2 ^ fuel`, and `0` for `n < 2`).  Structural recursion on the fuel so
that the kernel can evaluate it; the fuel used below (4096) covers every
number that can arise from binary64 computations. -/
def natLog2F : ℕ → ℕ → ℕ
  | 0, _ => 0
  | fuel + 1, n => if n < 2 then 0 else natLog2F fuel (n / 2) + 1

/-- Powers of two with integer exponent, as rationals. -/
def pow2 : ℤ → ℚ
  | .ofNat n => ((2 ^ n : ℕ) : ℚ)
  | .negSucc n => (((2 ^ (n + 1) : ℕ) : ℚ))⁻¹

/-- Floor of a nonnegative rational, as a natural number. -/
def qfloorN (q : ℚ) : ℕ := q.num.toNat / q.den

/-- Round a nonnegative rational to a natural number, ties to even
(IEEE round-to-nearest-even at integer granularity). -/
def rnHalfEven (q : ℚ) : ℕ :=
  let n := qfloorN q
  let f := q - (n : ℚ)
  if f < 1 / 2 then n
  else if (1 / 2 : ℚ) < f then n + 1
  else if n % 2 = 0 then n else n + 1

/-- Floor of log₂ of a positive rational. -/
def flog2 (q : ℚ) : ℤ :=
  if 1 ≤ q then (natLog2F 4096 (qfloorN q) : ℤ)
  else
    let m := natLog2F 4096 (qfloorN q⁻¹)
    if q * pow2 (m : ℤ) = 1 then -(m : ℤ) else -(m : ℤ) - 1

/-- Largest finite binary64 value, `(2^53 - 1) * 2^971`. -/
def maxFiniteQ : ℚ := ((2 ^ 53 - 1 : ℕ) : ℚ) * pow2 971

/-- Round a positive rational to the nearest binary64 value
(round-to-nearest-even, minimum exponent -1074); `none` on overflow. -/
def roundPos (a : ℚ) : Option ℚ :=
  let e : ℤ := max (flog2 a - 52) (-1074)
  let m := rnHalfEven (a / pow2 e)
  let v := (m : ℚ) * pow2 e
  if v ≤ maxFiniteQ then some v else none

/-- A binary64 value: a finite double (identified with its exact rational
value, sign of zero not tracked), a signed infinity, or NaN. -/
inductive F64 where
  | num (val : ℚ)
  | inf (neg : Bool)
  | nan
  deriving DecidableEq

deriving instance DecidableEq for Except

/-- IEEE round-to-nearest-even of an exact rational to binary64. -/
def roundF (q : ℚ) : F64 :=
  if q = 0 then .num 0
  else if 0 < q then
    match roundPos q with
    | some v => .num v
    | none => .inf false
  else
    match roundPos (-q) with
    | some v => .num (-v)
    | none => .inf true

/-- f64 negation. -/
def fneg : F64 → F64
  | .num a => .num (-a)
  | .inf s => .inf (!s)
  | .nan => .nan

/-- f64 addition: exact rational sum, then rounding; IEEE special cases for
infinities and NaN. -/
def fadd : F64 → F64 → F64
  | .nan, _ => .nan
  | _, .nan => .nan
  | .inf s, .inf t => if s = t then .inf s else .nan
  | .inf s, .num _ => .inf s
  | .num _, .inf t => .inf t
  | .num a, .num b => roundF (a + b)

/-- f64 subtraction, `x - y = x + (-y)` (exact in IEEE arithmetic). -/
def fsub (x y : F64) : F64 := fadd x (fneg y)

/-- f64 multiplication: exact rational product, then rounding; IEEE special
cases for infinities and NaN. -/
def fmul : F64 → F64 → F64
  | .nan, _ => .nan
  | _, .nan => .nan
  | .inf s, .inf t => .inf (xor s t)
  | .inf s, .num b => if b = 0 then .nan else .inf (xor s (decide (b < 0)))
  | .num a, .inf t => if a = 0 then .nan else .inf (xor (decide (a < 0)) t)
  | .num a, .num b => roundF (a * b)

/-- f64 division: exact rational quotient, then rounding; IEEE special cases
for zero divisors, infinities and NaN. -/
def fdiv : F64 → F64 → F64
  | .nan, _ => .nan
  | _, .nan => .nan
  | .inf _, .inf _ => .nan
  | .inf s, .num b => .inf (xor s (decide (b < 0)))
  | .num _, .inf _ => .num 0
  | .num a, .num b =>
    if b = 0 then (if a = 0 then .nan else .inf (decide (a < 0)))
    else roundF (a / b)

/-- Fuel-driven binary search for the integer square root; the invariant is
`lo² ≤ n < hi²`. -/
def isqrtAux : ℕ → ℕ → ℕ → ℕ → ℕ
  | 0, _, lo, _ => lo
  | fuel + 1, n, lo, hi =>
    if hi ≤ lo + 1 then lo
    else
      let mid := (lo + hi) / 2
      if mid * mid ≤ n then isqrtAux fuel n mid hi else isqrtAux fuel n lo mid

/-- Integer square root (floor), kernel-evaluable. -/
def isqrtN (n : ℕ) : ℕ := isqrtAux 8192 n 0 (n + 1)

/-- Floor of the square root of a nonnegative rational. -/
def ratSqrtFloor (b : ℚ) : ℕ := isqrtN (b.num.toNat * b.den) / b.den

/-- Correctly rounded (to-nearest-even) binary64 square root of a positive
rational.  The result exponent is found from `⌊log₂ a⌋`, the 53-bit mantissa by
comparing `a` with the square of the midpoint between candidate mantissas; the
square root of a positive double is always in the normal range, so no overflow
or subnormal handling is needed. -/
def sqrtRound (a : ℚ) : ℚ :=
  let e : ℤ := (flog2 a).ediv 2
  let b := a * pow2 (2 * (52 - e))
  let t := ratSqrtFloor b
  let tmid : ℚ := (t : ℚ) * (t : ℚ) + (t : ℚ) + 1 / 4
  let m := if b < tmid then t else if tmid < b then t + 1
    else if t % 2 = 0 then t else t + 1
  (m : ℚ) * pow2 (e - 52)

/-- f64 square root: IEEE `sqrt` (NaN on negative input, `sqrt (+inf) = +inf`). -/
def fsqrt : F64 → F64
  | .nan => .nan
  | .inf s => if s then .nan else .inf false
  | .num a => if a < 0 then .nan else if a = 0 then .num 0 else .num (sqrtRound a)

/-- The `u64 → f64` cast (`nums.len() as f64`), round-to-nearest. -/
def usizeToF64 (n : ℕ) : F64 := roundF (n : ℚ)

/-- The sequential summation loop of `mean`:
`let mut sum = 0.0; for num in nums { sum += num; }`. -/
def sumF (nums : List ℚ) : F64 :=
  nums.foldl (fun s x => fadd s (F64.num x)) (F64.num 0)

/-- Arithmetic mean (src/lib.rs `mean`): `0.0` for the empty slice, otherwise
the sequential sum divided by the length. -/
def mean (nums : List ℚ) : Option F64 :=
  if nums.length = 0 then some (F64.num 0)
  else some (fdiv (sumF nums) (usizeToF64 nums.length))

/-- Population standard deviation (src/lib.rs `stddev`): `None` for the empty
slice; otherwise `mean(nums).unwrap()` (an `unwrap` of `None` would panic,
modelled by `Except.error`), then the sequential sum of squared deviations
(`sum += (num - mean_nums).powi(2)`, where `powi(2)` is a single correctly
rounded multiplication), divided by the length, then `sqrt`. -/
def stddev (nums : List ℚ) : Except String (Option F64) :=
  if nums.length = 0 then .ok none
  else
    match mean nums with
    | none => .error "called unwrap on a None value"
    | some mean_nums =>
      .ok (some (fsqrt (fdiv
        (nums.foldl
          (fun s x => fadd s (fmul (fsub (F64.num x) mean_nums) (fsub (F64.num x) mean_nums)))
          (F64.num 0))
        (usizeToF64 nums.length))))

/-- Ascending sort of the copied slice
(`nums.sort_by(|a, b| a.partial_cmp(b).unwrap())`).  On finite doubles
`partial_cmp` is the total order on the rational values, and Rust's stable
sort produces the unique `≤`-sorted permutation, which `insertionSort` also
produces. -/
def sortF (nums : List ℚ) : List ℚ := List.insertionSort (· ≤ ·) nums

/-- Median (src/lib.rs `median`): `None` for the empty slice; otherwise sort a
copy and return the element at index `len / 2 - 1`, where `- 1` is `usize`
subtraction: for a slice of length 1, `len / 2 = 0` and `0 - 1` panics
(subtraction overflow in debug builds, wrap-around followed by an
out-of-bounds index panic in release builds), modelled by `Except.error`. -/
def median (nums : List ℚ) : Except String (Option ℚ) :=
  if nums.length = 0 then .ok none
  else
    let sorted := sortF nums
    let mid := nums.length / 2
    if mid = 0 then .error "attempt to subtract with overflow"
    else .ok (some (sorted.getD (mid - 1) 0))

/-- L2 norm (src/lib.rs `l2`): `0.0` for the empty slice, otherwise the
sequential sum of squares (`sum += num.powi(2)`) followed by `sqrt`. -/
def l2 (nums : List ℚ) : Option F64 :=
  if nums.length = 0 then some (F64.num 0)
  else
    some (fsqrt (nums.foldl (fun s x => fadd s (fmul (F64.num x) (F64.num x))) (F64.num 0)))

/-!
State-passing versions for the frame property (claim C9).  Rust passes the
input as a shared borrow `&[f64]`; here the caller's buffer is threaded
through the call explicitly and returned as the second component, so that
"the input after the call" is an object of the model.  `median`'s in-place
sort is applied to `owned`, the fresh vector produced by `to_owned()`, never
to the caller's buffer, exactly as in the source. -/

/-- State-passing `mean`: reads the buffer, returns it to the caller. -/
def meanSt (buf : List ℚ) : Option F64 × List ℚ :=
  if buf.length = 0 then (some (F64.num 0), buf)
  else (some (fdiv (sumF buf) (usizeToF64 buf.length)), buf)

/-- State-passing `stddev`: reads the buffer, returns it to the caller. -/
def stddevSt (buf : List ℚ) : Except String (Option F64) × List ℚ :=
  (stddev buf, buf)

/-- State-passing `median`: `nums.to_owned()` copies the slice into the fresh
vector `owned`; `sort_by` mutates only `owned`; the caller's buffer is
returned untouched. -/
def medianSt (buf : List ℚ) : Except String (Option ℚ) × List ℚ :=
  if buf.length = 0 then (.ok none, buf)
  else
    let owned := buf
    let owned := sortF owned
    let mid := buf.length / 2
    if mid = 0 then (.error "attempt to subtract with overflow", buf)
    else (.ok (some (owned.getD (mid - 1) 0)), buf)

/-- State-passing `l2`: reads the buffer, returns it to the caller. -/
def l2St (buf : List ℚ) : Option F64 × List ℚ :=
  (l2 buf, buf)

/-- Nonnegativity predicate on binary64 values: a nonnegative finite value or
`+inf` (in particular, not NaN). -/
def F64.isNonneg : F64 → Bool
  | .num q => decide (0 ≤ q)
  | .inf b => !b
  | .nan => false

/-- The exact rational value of the binary64 value a decimal literal denotes
(e.g. `f64OfLit (11/5)` is the double written `2.2` in the Rust source). -/
def f64OfLit (q : ℚ) : ℚ :=
  match roundF q with
  | .num v => v
  | _ => 0

/-! ## Helper lemmas -/

theorem pow2_pos (e : ℤ) : 0 < pow2 e := by
  cases e with
  | ofNat n =>
    simp only [pow2]
    positivity
  | negSucc n =>
    simp only [pow2]
    positivity

theorem roundPos_nonneg {a v : ℚ} (h : roundPos a = some v) : 0 ≤ v := by
  simp only [roundPos] at h
  split at h
  · cases h
    exact mul_nonneg (Nat.cast_nonneg _) (pow2_pos _).le
  · cases h

theorem isNonneg_num {a : ℚ} (h : (F64.num a).isNonneg = true) : 0 ≤ a := by
  simpa [F64.isNonneg] using h

theorem roundF_nonneg {q : ℚ} (hq : 0 ≤ q) : (roundF q).isNonneg = true := by
  unfold roundF
  rcases eq_or_lt_of_le hq with h | h
  · rw [if_pos h.symm]
    simp [F64.isNonneg]
  · rw [if_neg h.ne', if_pos h]
    rcases hrp : roundPos q with _ | v
    · simp [F64.isNonneg]
    · simpa [F64.isNonneg] using roundPos_nonneg hrp

theorem fadd_nonneg {x y : F64} (hx : x.isNonneg = true) (hy : y.isNonneg = true) :
    (fadd x y).isNonneg = true := by
  cases x with
  | num a =>
    cases y with
    | num b => exact roundF_nonneg (add_nonneg (isNonneg_num hx) (isNonneg_num hy))
    | inf t =>
      have ht : t = false := by simpa [F64.isNonneg] using hy
      subst ht
      simp [fadd, F64.isNonneg]
    | nan => simp [F64.isNonneg] at hy
  | inf s =>
    cases y with
    | num b =>
      have hs : s = false := by simpa [F64.isNonneg] using hx
      subst hs
      simp [fadd, F64.isNonneg]
    | inf t =>
      have hs : s = false := by simpa [F64.isNonneg] using hx
      have ht : t = false := by simpa [F64.isNonneg] using hy
      subst hs; subst ht
      simp [fadd, F64.isNonneg]
    | nan => simp [F64.isNonneg] at hy
  | nan => simp [F64.isNonneg] at hx

theorem fmul_self_nonneg (x : ℚ) : (fmul (F64.num x) (F64.num x)).isNonneg = true :=
  roundF_nonneg (mul_self_nonneg x)

theorem sqrtRound_nonneg (a : ℚ) : 0 ≤ sqrtRound a :=
  mul_nonneg (Nat.cast_nonneg _) (pow2_pos _).le

theorem fsqrt_nonneg {x : F64} (hx : x.isNonneg = true) : (fsqrt x).isNonneg = true := by
  cases x with
  | num a =>
    have ha : 0 ≤ a := isNonneg_num hx
    by_cases h0 : a = 0
    · subst h0; simp [fsqrt, F64.isNonneg]
    · simp [fsqrt, not_lt.mpr ha, h0, F64.isNonneg, sqrtRound_nonneg]
  | inf s =>
    have hs : s = false := by simpa [F64.isNonneg] using hx
    subst hs
    simp [fsqrt, F64.isNonneg]
  | nan => simp [F64.isNonneg] at hx

theorem isNonneg_ne_nan {x : F64} (h : x.isNonneg = true) : x ≠ F64.nan := by
  cases x <;> simp_all [F64.isNonneg]

theorem l2fold_nonneg (l : List ℚ) :
    ∀ acc : F64, acc.isNonneg = true →
      (l.foldl (fun s x => fadd s (fmul (F64.num x) (F64.num x))) acc).isNonneg = true := by
  induction l with
  | nil => intro acc h; simpa using h
  | cons x xs ih =>
    intro acc h
    simp only [List.foldl_cons]
    exact ih _ (fadd_nonneg h (fmul_self_nonneg x))

theorem mean_isSome (l : List ℚ) : (mean l).isSome = true := by
  unfold mean; split <;> rfl

theorem l2_isSome (l : List ℚ) : (l2 l).isSome = true := by
  unfold l2; split <;> rfl

theorem length_ne_zero_of_ne_nil {l : List ℚ} (h : l ≠ []) : l.length ≠ 0 :=
  fun hh => h (List.length_eq_zero.mp hh)

/-! ## Claims -/

/-- C1, counterexample: for the length-1 sequence `[2.0]` the selection rule's
index `⌊1/2⌋ - 1` underflows and `median` panics instead of returning a present
result, so the claim fails at `n = 1`. -/
theorem c1_median_singleton_panics :
    median [(2 : ℚ)] = .error "attempt to subtract with overflow" := by decide!

/-- C1 (amended): for every sequence of finite doubles of length at least 2,
`median` returns the element at zero-based index `⌊n/2⌋ - 1` of an ascending
sorted copy of the input (`sortF l` is indeed a sorted permutation of `l`);
for `n = 1` the index computation underflows and the call panics. -/
theorem c1_median_selects_lower_middle (l : List ℚ) (h : 2 ≤ l.length) :
    median l = .ok (some ((sortF l).getD (l.length / 2 - 1) 0)) ∧
    (sortF l).Perm l ∧ (sortF l).Sorted (· ≤ ·) := by
  refine ⟨?_, List.perm_insertionSort _ l, List.sorted_insertionSort _ l⟩
  simp only [median]
  rw [if_neg (by omega : ¬ l.length = 0), if_neg (by omega : ¬ l.length / 2 = 0)]

/-- C1 witness: the amended claim applied to the concrete input `[3, 1, 4, 1]`. -/
theorem c1_witness :
    2 ≤ [(3 : ℚ), 1, 4, 1].length ∧
    (median [(3 : ℚ), 1, 4, 1]
        = .ok (some ((sortF [(3 : ℚ), 1, 4, 1]).getD ([(3 : ℚ), 1, 4, 1].length / 2 - 1) 0)) ∧
      (sortF [(3 : ℚ), 1, 4, 1]).Perm [(3 : ℚ), 1, 4, 1] ∧
      (sortF [(3 : ℚ), 1, 4, 1]).Sorted (· ≤ ·)) :=
  ⟨by decide, c1_median_selects_lower_middle _ (by decide)⟩

/-- C2: the claim is correct about the intended contract but the code violates
it: `median` of any length-1 sequence takes an exceptional control path (the
`usize` subtraction `nums.len() / 2 - 1` underflows, panicking in debug builds
and producing an out-of-bounds index panic in release builds) instead of
returning an `Option` value.  This theorem evaluates the embedded code at the
failing input `[1.0]`. -/
theorem c2_median_length_one_panics :
    median [(1 : ℚ)] = .error "attempt to subtract with overflow" := by decide!

/-- C3, counterexample: `mean` is not invariant under permutation of its
input.  With the finite doubles `10^16`, `1` and `-10^16` (all exactly
representable), summing as `(10^16 + 1) + (-10^16)` rounds `10^16 + 1` back to
`10^16` (ties-to-even), giving mean `0.0`, while `(10^16 + (-10^16)) + 1`
gives mean `fl(1/3) = 0.3333333333333333`. -/
theorem c3_mean_not_perm_invariant :
    [((10 : ℚ) ^ 16), -(10 : ℚ) ^ 16, 1].Perm [((10 : ℚ) ^ 16), 1, -(10 : ℚ) ^ 16] ∧
    mean [((10 : ℚ) ^ 16), 1, -(10 : ℚ) ^ 16] = some (F64.num 0) ∧
    mean [((10 : ℚ) ^ 16), -(10 : ℚ) ^ 16, 1]
      = some (F64.num (6004799503160661 / 18014398509481984)) ∧
    mean [((10 : ℚ) ^ 16), 1, -(10 : ℚ) ^ 16]
      ≠ mean [((10 : ℚ) ^ 16), -(10 : ℚ) ^ 16, 1] := by decide!

/-- C3 (amended): `median`'s result is invariant under any permutation of its
input (it sorts internally, and sorting with the total order on finite doubles
canonicalizes permutations); `mean`, `stddev` and `l2` are invariant only up
to the rounding of the reordered sums, not exactly. -/
theorem c3_median_perm_invariant (l₁ l₂ : List ℚ) (h : l₁.Perm l₂) :
    median l₁ = median l₂ := by
  have hlen : l₁.length = l₂.length := h.length_eq
  have hsort : sortF l₁ = sortF l₂ :=
    List.eq_of_perm_of_sorted
      (((List.perm_insertionSort _ l₁).trans h).trans (List.perm_insertionSort _ l₂).symm)
      (List.sorted_insertionSort _ l₁) (List.sorted_insertionSort _ l₂)
  simp only [median]
  rw [hlen, hsort]

/-- C3 witness: the amended claim applied to the concrete permutation
`[2, 1, 3] ~ [3, 1, 2]`. -/
theorem c3_witness :
    [(2 : ℚ), 1, 3].Perm [(3 : ℚ), 1, 2] ∧ median [(2 : ℚ), 1, 3] = median [(3 : ℚ), 1, 2] :=
  ⟨by decide, c3_median_perm_invariant _ _ (by decide)⟩

/-- C4: on the empty input `mean` and `l2` return `Some 0.0` while `stddev`
and `median` return the absent result; moreover for every input, `mean` and
`l2` return a present result, and `stddev` (resp. `median`) returns the absent
result exactly when the input is empty. -/
theorem c4_empty_policy :
    mean ([] : List ℚ) = some (F64.num 0) ∧
    l2 ([] : List ℚ) = some (F64.num 0) ∧
    stddev ([] : List ℚ) = .ok none ∧
    median ([] : List ℚ) = .ok none ∧
    ∀ l : List ℚ, (mean l).isSome = true ∧ (l2 l).isSome = true ∧
      (stddev l = .ok none ↔ l = []) ∧ (median l = .ok none ↔ l = []) := by
  refine ⟨rfl, rfl, rfl, rfl, fun l => ⟨mean_isSome l, l2_isSome l, ⟨?_, ?_⟩, ⟨?_, ?_⟩⟩⟩
  · intro hs
    by_contra hne
    have hlen := length_ne_zero_of_ne_nil hne
    obtain ⟨m, hm⟩ := Option.isSome_iff_exists.mp (mean_isSome l)
    simp [stddev, hlen, hm] at hs
  · rintro rfl; rfl
  · intro hs
    by_contra hne
    have hlen := length_ne_zero_of_ne_nil hne
    by_cases hm : l.length / 2 = 0 <;> simp [median, hlen, hm] at hs
  · rintro rfl; rfl

/-- C5: for every non-empty sequence of finite doubles, `mean` returns `Some`
of the plain sequential left-to-right f64 sum of the elements divided (as an
f64 operation) by the length converted to f64. -/
theorem c5_mean_formula (l : List ℚ) (h : l ≠ []) :
    mean l = some (fdiv (l.foldl (fun acc x => fadd acc (F64.num x)) (F64.num 0))
      (roundF (l.length : ℚ))) := by
  have hlen := length_ne_zero_of_ne_nil h
  simp [mean, hlen, sumF, usizeToF64]

/-- C5 witness: the claim applied to the concrete input `[1, 2]`. -/
theorem c5_witness :
    [(1 : ℚ), 2] ≠ [] ∧
    mean [(1 : ℚ), 2] = some (fdiv ([(1 : ℚ), 2].foldl (fun acc x => fadd acc (F64.num x))
      (F64.num 0)) (roundF (([(1 : ℚ), 2].length : ℕ) : ℚ))) :=
  ⟨by decide, c5_mean_formula _ (by decide)⟩

/-- C6: for every non-empty sequence of finite doubles, `stddev` returns
`Some (sqrt ((Σ (xᵢ - m)²) / n))` where `m` is exactly the value `mean`
returns, the squared deviations are summed sequentially in f64 (each
`(xᵢ - m).powi(2)` is one subtraction and one multiplication, each correctly
rounded), the division by `n` is one f64 operation and a single f64 square
root is taken at the end. -/
theorem c6_stddev_formula (l : List ℚ) (m : F64) (h : l ≠ []) (hm : mean l = some m) :
    stddev l = .ok (some (fsqrt (fdiv
      (l.foldl (fun acc x => fadd acc (fmul (fsub (F64.num x) m) (fsub (F64.num x) m)))
        (F64.num 0))
      (roundF (l.length : ℚ))))) := by
  have hlen := length_ne_zero_of_ne_nil h
  simp [stddev, hlen, hm, usizeToF64]

/-- C6 witness: the claim applied to the concrete input `[1, 3]`, whose mean
is exactly `2.0` and whose standard deviation is exactly `1.0`. -/
theorem c6_witness :
    [(1 : ℚ), 3] ≠ [] ∧ mean [(1 : ℚ), 3] = some (F64.num 2) ∧
    stddev [(1 : ℚ), 3] = .ok (some (fsqrt (fdiv
      ([(1 : ℚ), 3].foldl (fun acc x => fadd acc (fmul (fsub (F64.num x) (F64.num 2))
        (fsub (F64.num x) (F64.num 2)))) (F64.num 0))
      (roundF (([(1 : ℚ), 3].length : ℕ) : ℚ))))) :=
  ⟨by decide, by decide!, c6_stddev_formula _ _ (by decide) (by decide!)⟩

/-- C7, counterexample: for the finite double `x = 2^1023` and `n = 2` the
intermediate sum `x + x` overflows to `+inf`, so `stddev` returns
`Some (+inf)`, not `Some 0.0`. -/
theorem c7_stddev_replicate_overflows :
    stddev (List.replicate 2 ((2 ^ 1023 : ℕ) : ℚ)) = .ok (some (F64.inf false)) ∧
    stddev (List.replicate 2 ((2 ^ 1023 : ℕ) : ℚ)) ≠ .ok (some (F64.num 0)) := by decide!

/-- C7 (amended): for every finite double `x` and every `n > 0` such that the
f64 mean computed by `mean` over the `n` copies of `x` is exactly `x` (which
rounding or overflow of the intermediate sum can prevent, e.g. `x = 2^1023`,
`n = 2`), `stddev (replicate n x)` returns exactly `Some 0.0`: every deviation
`x - x` is exactly `0.0`, and squaring, summing, dividing by `n` and taking
the square root all preserve it. -/
theorem c7_stddev_replicate_of_exact_mean (x : ℚ) (n : ℕ) (hn : 0 < n)
    (hm : mean (List.replicate n x) = some (F64.num x)) :
    stddev (List.replicate n x) = .ok (some (F64.num 0)) := by
  have hlen : (List.replicate n x).length = n := List.length_replicate n x
  have hlen0 : (List.replicate n x).length ≠ 0 := by omega
  have hsub : fsub (F64.num x) (F64.num x) = F64.num 0 := by
    simp [fsub, fneg, fadd, roundF]
  have hstep : fadd (F64.num 0)
      (fmul (fsub (F64.num x) (F64.num x)) (fsub (F64.num x) (F64.num x))) = F64.num 0 := by
    rw [hsub]
    simp [fmul, fadd, roundF]
  have hfold : ∀ k : ℕ, (List.replicate k x).foldl
      (fun s y => fadd s (fmul (fsub (F64.num y) (F64.num x)) (fsub (F64.num y) (F64.num x))))
      (F64.num 0) = F64.num 0 := by
    intro k
    induction k with
    | zero => rfl
    | succ k ih => simpa [List.replicate_succ, List.foldl_cons, hstep] using ih
  have hdiv : fdiv (sumF (List.replicate n x)) (usizeToF64 (List.replicate n x).length)
      = F64.num x := by
    have hmm := hm
    simp only [mean, if_neg hlen0, Option.some.injEq] at hmm
    exact hmm
  simp only [stddev, if_neg hlen0, hm, hfold]
  cases hD : usizeToF64 (List.replicate n x).length with
  | num v =>
    rw [hD] at hdiv
    by_cases hv : v = 0
    · exfalso
      subst hv
      cases hS : sumF (List.replicate n x) <;> rw [hS] at hdiv <;> simp [fdiv] at hdiv
      split at hdiv <;> simp at hdiv
    · simp [fdiv, hv, zero_div, roundF, fsqrt]
  | inf b =>
    simp [fdiv, fsqrt]
  | nan =>
    exfalso
    rw [hD] at hdiv
    cases hS : sumF (List.replicate n x) <;> rw [hS] at hdiv <;> simp [fdiv] at hdiv

/-- C7 witness: the amended claim applied to `x = 1.5`, `n = 3`, where the
computed mean of `[1.5, 1.5, 1.5]` is exactly `1.5`. -/
theorem c7_witness :
    0 < 3 ∧ mean (List.replicate 3 ((3 : ℚ) / 2)) = some (F64.num ((3 : ℚ) / 2)) ∧
    stddev (List.replicate 3 ((3 : ℚ) / 2)) = .ok (some (F64.num 0)) :=
  ⟨by decide, by decide!, c7_stddev_replicate_of_exact_mean _ _ (by decide) (by decide!)⟩

/-- C8: `mean(&[-1.0, 1.0])` is exactly `Some(0.0)` (the exact sum is `0`,
and `0 / 2 = 0`), and `mean(&[-6.0, 14.5, 2.2, -8.4, 6.2])` is bit-exactly
`Some(1.7)`: the inputs are the binary64 values of the decimal literals
(`f64OfLit`), the sequential f64 sum evaluates to exactly `8.5`, and
`8.5 / 5` rounds to exactly the double written `1.7`. -/
theorem c8_mean_examples :
    mean [f64OfLit (-1), f64OfLit 1] = some (F64.num 0) ∧
    mean [f64OfLit (-6), f64OfLit (29 / 2), f64OfLit (11 / 5), f64OfLit (-(42 / 5)),
        f64OfLit (31 / 5)]
      = some (F64.num (f64OfLit (17 / 10))) := by decide!

/-- C9: no call mutates the caller's sequence.  In the state-passing embedding
the buffer each function returns to its caller is the input buffer itself:
`mean`, `stddev` and `l2` only read it, and `median` applies its in-place sort
only to the fresh vector produced by `to_owned()` (whose sorted contents also
determine `median`'s pure result, last conjunct). -/
theorem c9_no_mutation (l : List ℚ) :
    (meanSt l).2 = l ∧ (stddevSt l).2 = l ∧ (medianSt l).2 = l ∧ (l2St l).2 = l ∧
    (medianSt l).1 = median l := by
  refine ⟨?_, rfl, ?_, rfl, ?_⟩
  · unfold meanSt
    split <;> rfl
  · simp only [medianSt]
    split
    · rfl
    · split <;> rfl
  · simp only [medianSt, median]
    split
    · rfl
    · split <;> rfl

/-- C10: `l2` always returns a present result that is nonnegative and not
NaN: squares of finite doubles are nonnegative, rounded sums of nonnegative
doubles stay nonnegative (overflowing only to `+inf`), and the square root of
a nonnegative double is nonnegative and never NaN. -/
theorem c10_l2_nonneg (l : List ℚ) :
    ∃ v, l2 l = some v ∧ v.isNonneg = true ∧ v ≠ F64.nan := by
  by_cases hlen : l.length = 0
  · exact ⟨F64.num 0, by simp [l2, hlen], by simp [F64.isNonneg], by simp⟩
  · refine ⟨fsqrt (l.foldl (fun s x => fadd s (fmul (F64.num x) (F64.num x))) (F64.num 0)),
      by simp [l2, hlen], ?_, ?_⟩
    · exact fsqrt_nonneg (l2fold_nonneg l _ (by simp [F64.isNonneg]))
    · exact isNonneg_ne_nan (fsqrt_nonneg (l2fold_nonneg l _ (by simp [F64.isNonneg])))
